import Mathlib

/-!
Verification of the block-based translation pipeline of the
AIMultiModalTranslating repository.

The Python data model (src/models.py) and the pure algorithmic content of
src/translation/llm_translator.py and src/reconstruction/builders.py are
shallowly embedded below.  Python floats are modelled as rationals, Python
lists as Lean lists, and Python dicts as insertion-ordered association
lists.  Network and file-system effects are abstracted into explicit
oracle parameters (a translation reply oracle, a synthesis oracle); the
try/except fallback paths of the source become total case analyses on
those oracles.
-/

set_option maxHeartbeats 1000000

namespace AIMMT

/-- Base text block, mirroring the dataclass TextBlock of src/models.py.
The bbox is the (x0, y0, x1, y1) bounding box used by PDF reconstruction;
the page field is 1-indexed for PDF blocks, as produced by the PDF
extractor. -/
structure TextBlock where
  block_id : String
  text : String
  page : Nat
  bbox : ℚ × ℚ × ℚ × ℚ
  font_size : ℚ
  font_name : String
  is_header : Bool
deriving DecidableEq, Repr

/-- Word-document block, mirroring DocxBlock of src/models.py.  The
positional indices are modelled as naturals: the extractor
(src/ingestion/docx_pptx_extractor.py) produces non-negative indices in
every field that the reconstructor reads (paragraph_index when the block
is not a table cell, table/row/col indices when it is). -/
structure DocxBlock extends TextBlock where
  style_name : String
  paragraph_index : Nat
  is_table_cell : Bool
  table_index : Nat
  row_index : Nat
  col_index : Nat
deriving DecidableEq, Repr

/-- Presentation block, mirroring PptxBlock of src/models.py. -/
structure PptxBlock extends TextBlock where
  slide_index : Nat
  shape_index : Nat
  shape_name : String
  paragraph_index : Nat
  placeholder_type : String
deriving DecidableEq, Repr

/-- Audio block, mirroring AudioBlock of src/models.py; start and end
times are in seconds. -/
structure AudioBlock extends TextBlock where
  start_time : ℚ
  end_time : ℚ
  confidence : ℚ
deriving DecidableEq, Repr

/-- Closed union of the block variants: Python dispatches on isinstance,
the embedding pattern-matches on this sum.  PDF extraction produces plain
TextBlock instances, so the pdf variant carries the base record. -/
inductive Block where
  | pdf (b : TextBlock)
  | docx (b : DocxBlock)
  | pptx (b : PptxBlock)
  | audio (b : AudioBlock)
deriving DecidableEq, Repr

/-- The base-class view of any block (shared fields of all variants). -/
def Block.base : Block → TextBlock
  | .pdf b => b
  | .docx b => b.toTextBlock
  | .pptx b => b.toTextBlock
  | .audio b => b.toTextBlock

/-! ## Python dict and string primitives -/

/-- Python dict assignment d[k] = v on an insertion-ordered association
list: replace in place when the key exists, append otherwise. -/
def dictInsert (m : List (String × String)) (k v : String) : List (String × String) :=
  if m.any (fun p => p.1 = k) then
    m.map (fun p => if p.1 = k then (k, v) else p)
  else
    m ++ [(k, v)]

/-- Python d.get(k, default). -/
def dictGetD (m : List (String × String)) (k d : String) : String :=
  match m.find? (fun p => p.1 = k) with
  | some p => p.2
  | none => d

/-- Python k in d / d[k] as an optional lookup. -/
def dictGet (m : List (String × String)) (k : String) : Option String :=
  (m.find? (fun p => p.1 = k)).map (fun p => p.2)

/-- The whitespace characters removed by Python str.strip(). -/
def isPyWhite (c : Char) : Bool :=
  c = ' ' || c = '\t' || c = '\n' || c = '\r' || c = '\x0b' || c = '\x0c'

/-- Python str.strip() over the character list. -/
def pyStripList (l : List Char) : List Char :=
  ((l.dropWhile isPyWhite).reverse.dropWhile isPyWhite).reverse

/-- Python str.strip(). -/
def pyStrip (s : String) : String :=
  String.mk (pyStripList s.data)

/-- Python str.lower(), restricted to ASCII case mapping (the sanitizer
compares against all-lowercase marker strings, so only the ASCII range is
exercised). -/
def pyLower (s : String) : String :=
  String.mk (s.data.map Char.toLower)

/-- Python a.startswith(b). -/
def pyStartsWith (s p : String) : Bool :=
  List.isPrefixOf p.data s.data

/-- Python s.split on a newline, over character lists: the result always
has at least one (possibly empty) piece. -/
def splitNlList : List Char → List (List Char)
  | [] => [[]]
  | c :: cs =>
    match splitNlList cs with
    | [] => [[c]]
    | l :: ls => if c = '\n' then [] :: l :: ls else (c :: l) :: ls

/-- Python s.split of a string on a newline. -/
def splitNl (s : String) : List String :=
  (splitNlList s.data).map String.mk

/-- Python a.join with a newline separator. -/
def joinNl (l : List String) : String :=
  String.intercalate "\n" l

/-! ## Chunker (chunk_blocks, src/translation/llm_translator.py lines 25-55) -/

/-- Token estimate of one block: len(text) / 4, exact in rationals. -/
def blockTokens (b : Block) : ℚ :=
  (b.base.text.length : ℚ) / 4

/-- Accumulating loop of chunk_blocks.  cur is the current chunk in
order, curTok the running token estimate.  When adding the next block
would push the estimate over max_tokens and the current chunk is
non-empty, the chunk is closed and a new one is seeded with a copy of its
last block before the pending block is appended. -/
def chunkGo (max_tokens : ℤ) : List Block → List Block → ℚ → List (List Block)
  | [], cur, _ => if cur = [] then [] else [cur]
  | b :: rest, cur, curTok =>
    if curTok + blockTokens b > (max_tokens : ℚ) ∧ cur ≠ [] then
      let seed := cur.getLastD b
      cur :: chunkGo max_tokens rest [seed, b] (blockTokens seed + blockTokens b)
    else
      chunkGo max_tokens rest (cur ++ [b]) (curTok + blockTokens b)

/-- chunk_blocks(blocks, max_tokens): group blocks into token-bounded
chunks with a single block of overlap between consecutive chunks. -/
def chunk_blocks (blocks : List Block) (max_tokens : ℤ) : List (List Block) :=
  chunkGo max_tokens blocks [] 0

/-- Concatenation of all chunks after removing the single duplicated
overlap block at the head of every chunk after the first. -/
def dechunk (chunks : List (List Block)) : List Block :=
  match chunks with
  | [] => []
  | c :: cs => c ++ (cs.map List.tail).flatten

/-- Total token estimate of one chunk. -/
def chunkTokens (c : List Block) : ℚ :=
  (c.map blockTokens).sum

/-- Concatenation of the tails of all chunks in a list. -/
def tailJoin (chunks : List (List Block)) : List Block :=
  (chunks.map List.tail).flatten

/-- A concrete PDF-style block used to instantiate theorems. -/
def sampleBlock : Block :=
  Block.pdf
    { block_id := "p1_b0", text := "Hello", page := 1, bbox := (0, 0, 10, 10),
      font_size := 12, font_name := "Helvetica", is_header := false }

/-- A concrete block whose 8-character text estimates to 2 tokens, above a
budget of 1. -/
def bigBlock : Block :=
  Block.pdf
    { block_id := "p1_b1", text := "12345678", page := 1, bbox := (0, 0, 10, 10),
      font_size := 12, font_name := "Helvetica", is_header := false }

/-! ## Translation orchestrator (src/translation/llm_translator.py lines 106-211) -/

/-- The commentary marker list of OllamaTranslator.translate_text. -/
def commentaryMarkers : List String :=
  ["translation:", "translation :", "here is", "here's", "voici",
   "les règles", "the following", "rules:", "règles:",
   "note:", "note :", "remarque:", "remarque :",
   "context:", "contexte:", "hint:", "indice:"]

/-- The bare metadata keywords dropped by the sanitizer. -/
def metadataKeywords : List String :=
  ["translation", "traduction", "rules", "règles"]

/-- One pass of the line filter: a blank line is preserved as the empty
string, a commentary or metadata line is dropped, any other line is kept
in stripped form. -/
def filterLine (line : String) : Option String :=
  let ls := pyStrip line
  if ls = "" then some ""
  else
    let ll := pyLower ls
    if commentaryMarkers.any (fun m => pyStartsWith ll (pyLower m)) then none
    else if metadataKeywords.any (fun k => ll = k) then none
    else some ls

/-- The full line filter of translate_text. -/
def filterLines (lines : List String) : List String :=
  lines.filterMap filterLine

/-- Drop leading empty strings from a line list (the leading-blank while
loop of translate_text). -/
def dropLeadingBlanks : List String → List String
  | [] => []
  | l :: ls => if l = "" then dropLeadingBlanks ls else l :: ls

/-- Drop leading and then trailing empty strings, preserving internal
ones (the two while loops of translate_text). -/
def trimBlanks (lines : List String) : List String :=
  (dropLeadingBlanks (dropLeadingBlanks lines).reverse).reverse

/-- Response sanitization of OllamaTranslator.translate_text: strip the
raw reply, split into lines, drop commentary/metadata lines, trim edge
blank lines; when the filter leaves no lines at all fall back to the
stripped raw reply, and when the final result is empty fall back to the
original source text. -/
def sanitizeReply (reply text : String) : String :=
  let translated := pyStrip reply
  let filtered := filterLines (splitNl translated)
  let result := if filtered = [] then translated else joinNl (trimBlanks filtered)
  if result = "" then text else result

/-- translate_text with the network interaction abstracted into an
optional raw reply: none models any request/parse exception (caught and
answered with the source text), some r a successful model reply r. -/
def translate_text (reply? : Option String) (text : String) : String :=
  match reply? with
  | none => text
  | some r => sanitizeReply r text

/-- One step of DocumentTranslator.translate_blocks: translate one block
and store the result under its block_id. -/
def translateStep (oracle : Block → Option String) (m : List (String × String))
    (b : Block) : List (String × String) :=
  dictInsert m b.base.block_id (translate_text (oracle b) b.base.text)

/-- DocumentTranslator.translate_blocks: translate every block and return
the block_id → translated-text map.  The per-block network exchange is
the oracle; the claims quantified here have pairwise-distinct block ids,
under which the map contents are independent of task completion order, so
the concurrent population is modelled by the left fold. -/
def translate_blocks (oracle : Block → Option String) (blocks : List Block) :
    List (String × String) :=
  blocks.foldl (translateStep oracle) []

/-! ## Subtitle generation (src/reconstruction/builders.py lines 356-380, 570-576) -/

/-- Concatenation of a list of strings (the sequence of f.write calls). -/
def concatStrings (l : List String) : String :=
  l.foldr (· ++ ·) ""

/-- Python a % b (sign of the divisor; used with positive divisors).
Rat.floor is the executable floor on rationals. -/
def pyMod (a b : ℚ) : ℚ :=
  a - b * ((a / b).floor : ℤ)

/-- Python format specifier 0Nd on a natural number. -/
def natPadLeft (w : Nat) (n : Nat) : String :=
  let s := toString n
  String.mk (List.replicate (w - s.length) '0') ++ s

/-- Python format specifier 0Nd on an integer (the sign eats padding
width, as in CPython). -/
def intPadLeft (w : Nat) (n : ℤ) : String :=
  if n < 0 then "-" ++ natPadLeft (w - 1) (-n).toNat else natPadLeft w n.toNat

/-- _format_srt_timestamp(seconds): HH:MM:SS,mmm with every component
truncated, never rounded.  Python int() and // agree with the rational
floor on the non-negative values produced here, and exactly mirror the
source expressions componentwise. -/
def _format_srt_timestamp (seconds : ℚ) : String :=
  let hours : ℤ := (seconds / 3600).floor
  let minutes : ℤ := (pyMod seconds 3600 / 60).floor
  let secs : ℤ := (pyMod seconds 60).floor
  let millis : ℤ := (pyMod seconds 1 * 1000).floor
  intPadLeft 2 hours ++ ":" ++ intPadLeft 2 minutes ++ ":" ++ intPadLeft 2 secs
    ++ "," ++ intPadLeft 3 millis

/-- One SubRip record as written by _generate_srt_file: index line,
timing line, translated text line, blank separator line. -/
def srtRecord (idx : Nat) (a : AudioBlock) (tm : List (String × String)) : String :=
  toString idx ++ "\n"
    ++ _format_srt_timestamp a.start_time ++ " --> " ++ _format_srt_timestamp a.end_time ++ "\n"
    ++ dictGetD tm a.block_id a.text ++ "\n"
    ++ "\n"

/-- The enumerate(start=1) loop of _generate_srt_file: the index advances
for every block, a record is only written for audio blocks. -/
def srtGo (tm : List (String × String)) : Nat → List Block → String
  | _, [] => ""
  | idx, b :: rest =>
    (match b with
     | .audio a => srtRecord idx a tm
     | _ => "") ++ srtGo tm (idx + 1) rest

/-- _generate_srt_file: the full file content. -/
def _generate_srt_file (blocks : List Block) (tm : List (String × String)) : String :=
  srtGo tm 1 blocks

/-! ## Audio synthesis (src/reconstruction/builders.py lines 383-567) -/

/-- One translated segment collected by _generate_translated_audio
before synthesis. -/
structure AudioSeg where
  text : String
  start_time : ℚ
  end_time : ℚ
  duration : ℚ
deriving DecidableEq, Repr

/-- The segment-collection loop: one segment per audio block whose
translated text (with source-text fallback) is non-blank. -/
def collectSegments (blocks : List Block) (tm : List (String × String)) : List AudioSeg :=
  blocks.filterMap (fun b =>
    match b with
    | .audio a =>
      let translated := dictGetD tm a.block_id a.text
      if pyStrip translated = "" then none
      else some ⟨translated, a.start_time, a.end_time, a.end_time - a.start_time⟩
    | _ => none)

/-- A synthesized (or silence-substituted) clip with its timing. -/
structure ClipSeg where
  audio : List ℚ
  start_time : ℚ
  duration : ℚ
deriving DecidableEq, Repr

/-- Python int(t * sample_rate) on the non-negative values produced
here. -/
def sampleCount (t sr : ℚ) : ℕ :=
  ((t * sr).floor).toNat

/-- The synthesis loop: a successful synthesis keeps the returned mono
waveform, a per-segment failure is caught and replaced by a silence
buffer of the same duration. -/
def synthSegments (oracle : AudioSeg → Option (List ℚ)) (sr : ℚ)
    (segs : List AudioSeg) : List ClipSeg :=
  segs.map (fun s =>
    match oracle s with
    | some wav => ⟨wav, s.start_time, s.duration⟩
    | none => ⟨List.replicate (sampleCount s.duration sr) 0, s.start_time, s.duration⟩)

/-- Python max() over a list (meaningful on the non-empty lists reaching
it; the source raises beforehand when no segment exists). -/
def pyMaxList (l : List ℚ) : ℚ :=
  match l with
  | [] => 0
  | x :: xs => xs.foldl max x

/-- Trim, or pad with silence, a clip to exactly n samples. -/
def trimPad (l : List ℚ) (n : ℕ) : List ℚ :=
  if n < l.length then l.take n
  else l ++ List.replicate (n - l.length) 0

/-- NumPy slice assignment buf[off : off + len(data)] = data (callers
guard off + len(data) ≤ len(buf)). -/
def writeAt (buf : List ℚ) (off : ℕ) (data : List ℚ) : List ℚ :=
  buf.take off ++ data ++ buf.drop (off + data.length)

/-- The placement loop body: trim or pad the clip to its expected sample
count and write it at its start_time offset when it fits. -/
def writeClip (sr : ℚ) (buf : List ℚ) (c : ClipSeg) : List ℚ :=
  let start_sample := sampleCount c.start_time sr
  let data := trimPad c.audio (sampleCount c.duration sr)
  if start_sample + data.length ≤ buf.length then writeAt buf start_sample data else buf

/-- _generate_translated_audio with synthesis abstracted into an oracle
(none models a caught per-segment synthesis failure) and a single working
sample rate: collect segments, synthesize, allocate one silent buffer
sized to max(start_time + duration), and place every clip at its own
offset.  The none result models the ValueError raised when no translated
segment exists. -/
def _generate_translated_audio (oracle : AudioSeg → Option (List ℚ)) (sr : ℚ)
    (blocks : List Block) (tm : List (String × String)) : Option (List ℚ) :=
  let segs := collectSegments blocks tm
  if segs = [] then none
  else
    let clips := synthSegments oracle sr segs
    let total_samples := sampleCount (pyMaxList (clips.map (fun c => c.start_time + c.duration))) sr
    some (clips.foldl (writeClip sr) (List.replicate total_samples 0))

/-- The total_samples expression of _generate_translated_audio: the
single output buffer is sized to max(start_time + duration) over all
collected segments. -/
def totalSamples (oracle : AudioSeg → Option (List ℚ)) (sr : ℚ)
    (blocks : List Block) (tm : List (String × String)) : ℕ :=
  sampleCount (pyMaxList ((synthSegments oracle sr (collectSegments blocks tm)).map
    (fun c => c.start_time + c.duration))) sr

/-! ## DOCX / PPTX reconstruction (src/reconstruction/builders.py lines 55-161) -/

/-- A Word document as reopened by rebuild_docx: each paragraph is its
run-text list; each table is rows of cells of paragraphs. -/
structure DocxDoc where
  paragraphs : List (List String)
  tables : List (List (List (List (List String))))
deriving DecidableEq, Repr

/-- _replace_paragraph_text (and the textually identical
_replace_pptx_paragraph): set the first run's text, blank every other
run, and add a single run when none exists. -/
def _replace_paragraph_text (para : List String) (new_text : String) : List String :=
  match para with
  | [] => [new_text]
  | _ :: rest => new_text :: rest.map (fun _ => "")

/-- The per-block body of rebuild_docx: bounds-checked index resolution,
then first-run substitution with translations.get(block_id, block.text);
any out-of-range index (or an empty cell) leaves the document
untouched. -/
def docxStep (tm : List (String × String)) (doc : DocxDoc) (b : Block) : DocxDoc :=
  match b with
  | .docx blk =>
    if blk.is_table_cell then
      match doc.tables[blk.table_index]? with
      | none => doc
      | some tbl =>
        match tbl[blk.row_index]? with
        | none => doc
        | some row =>
          match row[blk.col_index]? with
          | none => doc
          | some cell =>
            match cell with
            | [] => doc
            | p :: ps =>
              let translated := dictGetD tm blk.block_id blk.text
              let newTables := doc.tables.set blk.table_index
                (tbl.set blk.row_index (row.set blk.col_index
                  (_replace_paragraph_text p translated :: ps)))
              { doc with tables := newTables }
    else
      match doc.paragraphs[blk.paragraph_index]? with
      | none => doc
      | some para =>
        let translated := dictGetD tm blk.block_id blk.text
        let newParas := doc.paragraphs.set blk.paragraph_index
          (_replace_paragraph_text para translated)
        { doc with paragraphs := newParas }
  | _ => doc

/-- rebuild_docx on the structured view of the copied file. -/
def rebuild_docx (doc : DocxDoc) (blocks : List Block) (tm : List (String × String)) : DocxDoc :=
  blocks.foldl (docxStep tm) doc

/-- A presentation as reopened by rebuild_pptx: slides hold shapes; a
shape with a text frame carries its paragraphs (run-text lists), a shape
without one is none. -/
structure PptxDoc where
  slides : List (List (Option (List (List String))))
deriving DecidableEq, Repr

/-- The per-block body of rebuild_pptx: bounds-checked slide/shape/
paragraph resolution, has_text_frame check, then first-run
substitution. -/
def pptxStep (tm : List (String × String)) (doc : PptxDoc) (b : Block) : PptxDoc :=
  match b with
  | .pptx blk =>
    match doc.slides[blk.slide_index]? with
    | none => doc
    | some slide =>
      match slide[blk.shape_index]? with
      | none => doc
      | some shape =>
        match shape with
        | none => doc
        | some tf =>
          match tf[blk.paragraph_index]? with
          | none => doc
          | some para =>
            let translated := dictGetD tm blk.block_id blk.text
            let newSlides := doc.slides.set blk.slide_index
              (slide.set blk.shape_index (some (tf.set blk.paragraph_index
                (_replace_paragraph_text para translated))))
            { doc with slides := newSlides }
  | _ => doc

/-- rebuild_pptx on the structured view of the copied file. -/
def rebuild_pptx (doc : PptxDoc) (blocks : List Block) (tm : List (String × String)) : PptxDoc :=
  blocks.foldl (pptxStep tm) doc

/-- The text of one paragraph: the concatenation of its runs' texts. -/
def paraText (para : List String) : String :=
  concatStrings para

/-- The text content of a Word document: per-paragraph and per-cell
paragraph texts. -/
def docxTexts (doc : DocxDoc) : List String × List (List (List (List String))) :=
  (doc.paragraphs.map paraText,
   doc.tables.map (fun t => t.map (fun r => r.map (fun c => c.map paraText))))

/-- The content of one table cell located by table/row/column indices,
usable both on raw tables (cells are paragraph lists) and on their
docxTexts image (cells are paragraph-text lists). -/
def cellTextsAt {α : Type} (tset : List (List (List α))) (ti ri ci : ℕ) : Option α :=
  tset[ti]?.bind (fun t => (t[ri]?).bind (fun r => r[ci]?))

/-- The premise under which the empty-map rebuild of one block is
text-preserving: when its stored index resolves, the block's text equals
the run-concatenated text of the paragraph (or of the cell's FIRST
paragraph) it rewrites.  The repository's extractor does not guarantee
this: it stores strip(para.text), and for cells the newline-join of ALL
the cell's paragraphs (cell.text), so the premise fails on paragraphs
with edge whitespace and on multi-paragraph cells. -/
def blockMatches (doc : DocxDoc) (b : Block) : Prop :=
  ∀ blk : DocxBlock, b = Block.docx blk →
    (blk.is_table_cell = false →
      ∀ s, (docxTexts doc).1[blk.paragraph_index]? = some s → s = blk.text) ∧
    (blk.is_table_cell = true →
      ∀ ct s, cellTextsAt (docxTexts doc).2 blk.table_index blk.row_index blk.col_index
          = some ct → ct.head? = some s → s = blk.text)

/-- A concrete two-run one-paragraph Word document. -/
def cdoc : DocxDoc :=
  { paragraphs := [["Hello", " world"]], tables := [] }

/-- The block extracted from cdoc's single paragraph. -/
def cdocxblk : DocxBlock :=
  { block_id := "para_0", text := "Hello world", page := 0, bbox := (0, 0, 0, 0),
    font_size := 12, font_name := "Calibri", is_header := false,
    style_name := "Normal", paragraph_index := 0, is_table_cell := false,
    table_index := 0, row_index := 0, col_index := 0 }

/-- A concrete one-slide presentation whose only shape has one two-run
paragraph. -/
def cpdoc : PptxDoc :=
  { slides := [[some [["Title", " here"]]]] }

/-- The block extracted from cpdoc's single paragraph. -/
def cpptxblk : PptxBlock :=
  { block_id := "s0_sh0_p0", text := "Title here", page := 0, bbox := (0, 0, 0, 0),
    font_size := 24, font_name := "Calibri", is_header := true,
    slide_index := 0, shape_index := 0, shape_name := "Title 1",
    paragraph_index := 0, placeholder_type := "PP_PLACEHOLDER.TITLE" }

/-- A document whose single table cell holds two one-run paragraphs. -/
def cellDoc : DocxDoc :=
  { paragraphs := [], tables := [[[[["A"], ["B"]]]]] }

/-- The block extract_docx produces for cellDoc's cell: its text is the
newline-join of the cell's paragraph texts (python-docx cell.text),
stripped.  The source stores the unread paragraph_index sentinel -1 for
cells; the natural-number model uses 0, which the table branch never
reads. -/
def cellBlk : DocxBlock :=
  { block_id := "tbl0_r0_c0", text := "A\nB", page := 0, bbox := (0, 0, 0, 0),
    font_size := 12, font_name := "Calibri", is_header := false,
    style_name := "Normal", paragraph_index := 0, is_table_cell := true,
    table_index := 0, row_index := 0, col_index := 0 }

/-! ## PDF reconstruction (src/reconstruction/builders.py lines 164-303) -/

/-- A4 in points, the default page size when the original yields no
pages. -/
def a4Size : ℚ × ℚ :=
  (595, 842)

/-- The recovered page-size list after the empty-document default. -/
def effSizes (sizes : List (ℚ × ℚ)) : List (ℚ × ℚ) :=
  if sizes = [] then [a4Size] else sizes

/-- 0-indexed page of a block (block.page - 1; PDF extraction produces
1-indexed pages). -/
def pageNum (b : Block) : ℕ :=
  b.base.page - 1

/-- The (width, height) used while drawing page k: the recovered size at
k when in range, else the first recovered size (the list is non-empty
after the default). -/
def sizeFor (sizes : List (ℚ × ℚ)) (k : ℕ) : ℚ × ℚ :=
  match sizes[k]? with
  | some s => s
  | none =>
    match sizes[0]? with
    | some s => s
    | none => a4Size

/-- ReportLab XML escaping of the replace chain for one character:
ampersand, angle brackets, then explicit newlines to in-paragraph
breaks. -/
def escapeChar (c : Char) : String :=
  if c = '&' then "&amp;"
  else if c = '<' then "&lt;"
  else if c = '>' then "&gt;"
  else if c = '\n' then "<br/>"
  else String.mk [c]

/-- The sequential str.replace chain of rebuild_pdf (no replacement ever
re-touches an inserted escape, so the single pass is exact). -/
def escapeText (s : String) : String :=
  concatStrings (s.data.map escapeChar)

/-- The in-page sort key (-y0, x0) of rebuild_pdf. -/
def drawKey (b : Block) : ℚ × ℚ :=
  (-b.base.bbox.2.1, b.base.bbox.1)

/-- Lexicographic comparison of in-page sort keys (Python tuple
ordering). -/
def drawLe (b₁ b₂ : Block) : Prop :=
  (drawKey b₁).1 < (drawKey b₂).1
    ∨ ((drawKey b₁).1 = (drawKey b₂).1 ∧ (drawKey b₁).2 ≤ (drawKey b₂).2)

instance : DecidableRel drawLe := fun b₁ b₂ => by
  unfold drawLe
  infer_instance

/-- The blocks grouped onto 0-indexed page k, in input order (dict
insertion order). -/
def pageBlocksFor (blocks : List Block) (k : ℕ) : List Block :=
  blocks.filter (fun b => pageNum b = k)

/-- One drawOn command: the paragraph's absolute origin, escaped text and
style parameters, together with the source block it renders.  A block
whose translated text is blank after stripping is skipped. -/
structure PdfDraw where
  blk : TextBlock
  x : ℚ
  y : ℚ
  text : String
  fontSize : ℚ
  header : Bool
deriving DecidableEq, Repr

/-- One output page of the canvas: pageIndex is the 0-indexed original
page whose recovered size governs it, size is the page size set on it by
setPageSize (none when page_num is out of range of the recovered sizes,
in which case setPageSize is not called), and draws are its drawOn
commands in draw order.  The initial canvas page - constructed with
page_sizes[0] and flushed blank by the first showPage when the smallest
block-carrying index is positive - is governed by index 0 and has no
draws. -/
structure PdfPage where
  pageIndex : ℕ
  size : Option (ℚ × ℚ)
  draws : List PdfDraw
deriving DecidableEq, Repr

/-- The per-block rendering of rebuild_pdf on page k: fallback lookup,
blank skip, XML escape, minimum 10pt font, and conversion of the
top-left-origin bbox to the bottom-left-origin draw point
(x0, page_height - y1). -/
def mkDraw (sizes : List (ℚ × ℚ)) (k : ℕ) (tm : List (String × String))
    (b : Block) : Option PdfDraw :=
  let translated := dictGetD tm b.base.block_id b.base.text
  if pyStrip translated = "" then none
  else
    some { blk := b.base,
           x := b.base.bbox.1,
           y := (sizeFor sizes k).2 - b.base.bbox.2.2.2,
           text := escapeText translated,
           fontSize := max b.base.font_size 10,
           header := b.base.is_header }

/-- One iteration of the page loop of rebuild_pdf. -/
def mkPage (sizes : List (ℚ × ℚ)) (tm : List (String × String))
    (blocks : List Block) (k : ℕ) : PdfPage :=
  { pageIndex := k,
    size := sizes[k]?,
    draws := (List.insertionSort drawLe (pageBlocksFor blocks k)).filterMap (mkDraw sizes k tm) }

/-- The sorted distinct 0-indexed page numbers carrying at least one
block: sorted(blocks_by_page.keys()), with dict insertion order before
sorting. -/
def pdfPageKeys (blocks : List Block) : List ℕ :=
  List.insertionSort (· ≤ ·) ((blocks.map pageNum).dedup)

/-- The initial canvas page: constructed with page_sizes[0] (the
recovered list is non-empty after the A4 default) and never drawn on. -/
def blankPage (sizes : List (ℚ × ℚ)) : PdfPage :=
  { pageIndex := 0, size := sizes[0]?, draws := [] }

/-- The page the first loop iteration flushes before drawing: the guard
at builders.py line 233 is page_num > 0, so when the smallest
block-carrying index is positive the first showPage emits the initial
canvas page blank; when it is 0 (or no page carries a block) no blank
page is emitted. -/
def leadingBlank (sizes : List (ℚ × ℚ)) (keys : List ℕ) : List PdfPage :=
  match keys with
  | [] => []
  | k :: _ => if 0 < k then [blankPage sizes] else []

/-- rebuild_pdf: recover page sizes (A4 default when empty), group the
blocks by 0-indexed page, and emit one page-drawing pass per distinct
block-carrying page index in ascending order, preceded by the flushed
initial blank page when the smallest such index is positive.  Canvas
teardown for a final page holding no draw command is outside the
embedding. -/
def rebuild_pdf (origSizes : List (ℚ × ℚ)) (blocks : List Block)
    (tm : List (String × String)) : List PdfPage :=
  let sizes := effSizes origSizes
  let keys := pdfPageKeys blocks
  leadingBlank sizes keys ++ keys.map (mkPage sizes tm blocks)

/-- A concrete audio block used to instantiate theorems. -/
def sampleAudioBlock : AudioBlock :=
  { block_id := "seg_0", text := "Good morning", page := 0, bbox := (0, 0, 0, 0),
    font_size := 12, font_name := "", is_header := false,
    start_time := 627/5, end_time := 127, confidence := 0 }

/-- A concrete PDF block with bbox (10,20,110,40) on 1-indexed page 1,
used for the coordinate round-trip instance. -/
def cornerBlock : TextBlock :=
  { block_id := "p1_b0", text := "hi", page := 1, bbox := (10, 20, 110, 40),
    font_size := 12, font_name := "Helvetica", is_header := false }

/-- A concrete block on 1-indexed page 2 of a two-page original: page 1
carries no block, so the first loop iteration flushes the initial canvas
page blank. -/
def pageTwoBlock : Block :=
  Block.pdf
    { block_id := "p2_b0", text := "hi", page := 2, bbox := (10, 20, 110, 40),
      font_size := 12, font_name := "Helvetica", is_header := false }


/-! ## Chunker lemmas -/

theorem dechunk_cons (c : List Block) (cs : List (List Block)) :
    dechunk (c :: cs) = c ++ tailJoin cs := rfl

theorem tailJoin_cons (c : List Block) (cs : List (List Block)) :
    tailJoin (c :: cs) = c.tail ++ tailJoin cs := by
  simp [tailJoin]

theorem tail_append_of_ne_nil {cur : List Block} (h : cur ≠ []) (b : Block) :
    (cur ++ [b]).tail = cur.tail ++ [b] := by
  cases cur with
  | nil => exact absurd rfl h
  | cons x xs => simp

theorem chunkGo_all_ne_nil (mt : ℤ) :
    ∀ (blocks cur : List Block) (curTok : ℚ), cur ≠ [] →
      ∀ c ∈ chunkGo mt blocks cur curTok, c ≠ [] := by
  intro blocks
  induction blocks with
  | nil =>
    intro cur curTok h c hc
    rw [chunkGo, if_neg (by simpa using h)] at hc
    simp only [List.mem_singleton] at hc
    exact hc ▸ h
  | cons b rest ih =>
    intro cur curTok h c hc
    rw [chunkGo] at hc
    split at hc
    · rcases List.mem_cons.mp hc with h1 | h2
      · exact h1 ▸ h
      · exact ih _ _ (by simp) c h2
    · exact ih _ _ (by simp [h]) c hc

theorem chunkGo_head (mt : ℤ) :
    ∀ (blocks cur : List Block) (curTok : ℚ), cur ≠ [] →
      ∃ ext cs, chunkGo mt blocks cur curTok = (cur ++ ext) :: cs := by
  intro blocks
  induction blocks with
  | nil =>
    intro cur curTok h
    exact ⟨[], [], by rw [chunkGo, if_neg (by simpa using h)]; simp⟩
  | cons b rest ih =>
    intro cur curTok h
    rw [chunkGo]
    split
    · exact ⟨[], _, by rw [List.append_nil]⟩
    · obtain ⟨ext, cs, hec⟩ := ih (cur ++ [b]) (curTok + blockTokens b) (by simp)
      exact ⟨[b] ++ ext, cs, by rw [hec]; simp⟩

theorem chunkGo_tailJoin (mt : ℤ) :
    ∀ (blocks cur : List Block) (curTok : ℚ), cur ≠ [] →
      tailJoin (chunkGo mt blocks cur curTok) = cur.tail ++ blocks := by
  intro blocks
  induction blocks with
  | nil =>
    intro cur curTok h
    rw [chunkGo, if_neg (by simpa using h)]
    simp [tailJoin]
  | cons b rest ih =>
    intro cur curTok h
    rw [chunkGo]
    split
    · rw [tailJoin_cons, ih _ _ (by simp)]
      simp
    · rw [ih _ _ (by simp), tail_append_of_ne_nil h]
      simp

theorem chunkGo_chain (mt : ℤ) :
    ∀ (blocks cur : List Block) (curTok : ℚ), cur ≠ [] →
      List.Chain' (fun c₁ c₂ => c₂.head? = c₁.getLast?) (chunkGo mt blocks cur curTok) := by
  intro blocks
  induction blocks with
  | nil =>
    intro cur curTok h
    rw [chunkGo, if_neg (by simpa using h)]
    simp
  | cons b rest ih =>
    intro cur curTok h
    rw [chunkGo]
    split
    · rename_i hcond
      rw [List.chain'_cons']
      refine ⟨?_, ih _ _ (by simp)⟩
      intro y hy
      obtain ⟨ext, cs, hec⟩ := chunkGo_head mt rest [cur.getLastD b, b]
        (blockTokens (cur.getLastD b) + blockTokens b) (by simp)
      rw [hec] at hy
      simp only [List.head?_cons, Option.mem_def, Option.some.injEq] at hy
      subst hy
      simp only [List.cons_append, List.head?_cons]
      rw [List.getLastD_eq_getLast?]
      cases hl : cur.getLast? with
      | none => exact absurd (List.getLast?_eq_none_iff.mp hl) hcond.2
      | some x => simp
    · exact ih _ _ (by simp)

theorem chunk_blocks_start (blocks : List Block) (b : Block) (mt : ℤ) :
    chunk_blocks (b :: blocks) mt = chunkGo mt blocks [b] (0 + blockTokens b) := by
  rw [chunk_blocks, chunkGo, if_neg (by simp)]
  simp

theorem dechunk_chunk_blocks (blocks : List Block) (mt : ℤ) :
    dechunk (chunk_blocks blocks mt) = blocks := by
  cases blocks with
  | nil => rw [chunk_blocks, chunkGo, if_pos rfl]; rfl
  | cons b rest =>
    rw [chunk_blocks_start]
    obtain ⟨ext, cs, hec⟩ := chunkGo_head mt rest [b] (0 + blockTokens b) (by simp)
    have ht := chunkGo_tailJoin mt rest [b] (0 + blockTokens b) (by simp)
    rw [hec] at ht ⊢
    rw [tailJoin_cons] at ht
    simp only [List.tail_nil, List.nil_append, List.cons_append, List.tail_cons] at ht
    rw [dechunk_cons]
    simp only [List.cons_append, List.append_assoc]
    rw [ht]
    simp

theorem mem_of_mem_dechunk {b : Block} {cs : List (List Block)} (h : b ∈ dechunk cs) :
    ∃ c ∈ cs, b ∈ c := by
  cases cs with
  | nil => simp [dechunk] at h
  | cons c cs' =>
    rw [dechunk_cons] at h
    rcases List.mem_append.mp h with h1 | h2
    · exact ⟨c, List.mem_cons_self c cs', h1⟩
    · rw [tailJoin] at h2
      obtain ⟨l, hl, hbl⟩ := List.mem_flatten.mp h2
      obtain ⟨x, hx, hxl⟩ := List.mem_map.mp hl
      subst hxl
      exact ⟨x, List.mem_cons_of_mem c hx, List.mem_of_mem_tail hbl⟩

/-- Claim C2: for every block list and every max_tokens > 0, chunk_blocks
produces only non-empty chunks; each chunk after the first begins with a
duplicate of the last block of the preceding chunk; and concatenating all
chunks after removing exactly that one duplicated overlap block at each
chunk boundary reproduces the original block sequence exactly (which also
gives that every input block appears, in original order). -/
theorem chunk_blocks_spec (blocks : List Block) (max_tokens : ℤ) (hmt : 0 < max_tokens) :
    (∀ c ∈ chunk_blocks blocks max_tokens, c ≠ []) ∧
    List.Chain' (fun c₁ c₂ => c₂.head? = c₁.getLast?) (chunk_blocks blocks max_tokens) ∧
    dechunk (chunk_blocks blocks max_tokens) = blocks := by
  refine ⟨?_, ?_, dechunk_chunk_blocks blocks max_tokens⟩
  · cases blocks with
    | nil => intro c hc; rw [chunk_blocks, chunkGo, if_pos rfl] at hc; simp at hc
    | cons b rest =>
      rw [chunk_blocks_start]
      exact chunkGo_all_ne_nil max_tokens rest [b] (0 + blockTokens b) (by simp)
  · cases blocks with
    | nil => rw [chunk_blocks, chunkGo, if_pos rfl]; simp
    | cons b rest =>
      rw [chunk_blocks_start]
      exact chunkGo_chain max_tokens rest [b] (0 + blockTokens b) (by simp)

/-- Witness for claim C2 at a concrete one-block input. -/
theorem chunk_blocks_spec_witness :
    dechunk (chunk_blocks [sampleBlock] 800) = [sampleBlock] :=
  (chunk_blocks_spec [sampleBlock] 800 (by decide)).2.2

/-- Claim C10: chunk_blocks never splits a block, so a produced chunk's
token estimate can strictly exceed max_tokens (witnessed by a single
block whose len(text)/4 estimate is 2 against a budget of 1); and every
input block is always placed whole into some produced chunk. -/
theorem chunk_blocks_budget_overflow :
    (∃ c ∈ chunk_blocks [bigBlock] 1, (1 : ℚ) < chunkTokens c) ∧
    (∀ (blocks : List Block) (max_tokens : ℤ) (b : Block), b ∈ blocks →
      ∃ c ∈ chunk_blocks blocks max_tokens, b ∈ c) := by
  constructor
  · refine ⟨[bigBlock], ?_, ?_⟩
    · rw [chunk_blocks_start, chunkGo, if_neg (by simp)]
      simp
    · simp only [chunkTokens, blockTokens, bigBlock, Block.base, List.map_cons,
        List.map_nil, List.sum_cons, List.sum_nil]
      rw [show ("12345678".length : ℕ) = 8 from rfl]
      norm_num
  · intro blocks max_tokens b hb
    exact mem_of_mem_dechunk ((dechunk_chunk_blocks blocks max_tokens).symm ▸ hb)

/-- Witness for claim C10 at a concrete input. -/
theorem chunk_blocks_budget_overflow_witness :
    ∃ c ∈ chunk_blocks [bigBlock] 1, bigBlock ∈ c :=
  chunk_blocks_budget_overflow.2 [bigBlock] 1 bigBlock (List.mem_singleton.mpr rfl)

/-! ## Translation map lemmas -/

theorem find?_self_of_nodup :
    ∀ (m : List (String × String)), (m.map Prod.fst).Nodup →
      ∀ p ∈ m, m.find? (fun q => q.1 = p.1) = some p := by
  intro m
  induction m with
  | nil => intro _ p hp; simp at hp
  | cons q rest ih =>
    intro h p hp
    simp only [List.map_cons, List.nodup_cons] at h
    rcases List.mem_cons.mp hp with h1 | h2
    · subst h1
      simp [List.find?]
    · have hne : (decide (q.1 = p.1)) = false := by
        simp only [decide_eq_false_iff_not]
        intro hq
        exact h.1 (hq ▸ List.mem_map.mpr ⟨p, h2, rfl⟩)
      rw [List.find?]
      simp only [hne]
      exact ih h.2 p h2

theorem dictInsert_append {m : List (String × String)} {k : String}
    (h : k ∉ m.map Prod.fst) (v : String) : dictInsert m k v = m ++ [(k, v)] := by
  rw [dictInsert, if_neg]
  simp only [List.any_eq_true, decide_eq_true_eq, not_exists, not_and]
  intro p hp hk
  exact h (hk ▸ List.mem_map.mpr ⟨p, hp, rfl⟩)

theorem translate_blocks_go (oracle : Block → Option String) :
    ∀ (blocks : List Block) (m : List (String × String)),
      (m.map Prod.fst ++ blocks.map (fun b => b.base.block_id)).Nodup →
      ((blocks.foldl (translateStep oracle) m).map Prod.fst
          = m.map Prod.fst ++ blocks.map (fun b => b.base.block_id)) ∧
      (∀ p ∈ m, dictGet (blocks.foldl (translateStep oracle) m) p.1 = some p.2) ∧
      (∀ b ∈ blocks, dictGet (blocks.foldl (translateStep oracle) m) b.base.block_id
          = some (translate_text (oracle b) b.base.text)) := by
  intro blocks
  induction blocks with
  | nil =>
    intro m h
    refine ⟨by simp, ?_, by simp⟩
    intro p hp
    simp only [List.foldl_nil]
    rw [dictGet, find?_self_of_nodup m (by simpa using h) p hp]
    rfl
  | cons b rest ih =>
    intro m h
    have hbid : b.base.block_id ∉ m.map Prod.fst := by
      have hd := (List.nodup_append.mp h).2.2
      intro hin
      exact hd hin (by simp)
    have hm' : translateStep oracle m b
        = m ++ [(b.base.block_id, translate_text (oracle b) b.base.text)] := by
      rw [translateStep, dictInsert_append hbid]
    have hnd' : ((m ++ [(b.base.block_id, translate_text (oracle b) b.base.text)]).map Prod.fst
        ++ rest.map (fun b => b.base.block_id)).Nodup := by
      simpa [List.append_assoc] using h
    have hih := ih (m ++ [(b.base.block_id, translate_text (oracle b) b.base.text)]) hnd'
    rw [List.foldl_cons, hm']
    refine ⟨?_, ?_, ?_⟩
    · rw [hih.1]; simp
    · intro p hp
      exact hih.2.1 p (List.mem_append_left _ hp)
    · intro b' hb'
      rcases List.mem_cons.mp hb' with h1 | h2
      · subst h1
        exact hih.2.1 (b'.base.block_id, translate_text (oracle b') b'.base.text)
          (List.mem_append_right _ (List.mem_singleton.mpr rfl))
      · exact hih.2.2 b' h2

/-- Claim C1: for every non-empty block list with pairwise-distinct
block_ids, translate_blocks returns a map whose key list is exactly the
list of input block_ids (so the key set is the set of input ids), and for
any block whose translation request raises an error (oracle returns
none, the caught-exception path) the map's value at that block_id is the
block's own original text; the fold is total, so one block's failure
never aborts the batch. -/
theorem translate_blocks_spec (oracle : Block → Option String) (blocks : List Block)
    (hne : blocks ≠ [])
    (hnd : (blocks.map (fun b => b.base.block_id)).Nodup) :
    ((translate_blocks oracle blocks).map Prod.fst
        = blocks.map (fun b => b.base.block_id)) ∧
    (∀ b ∈ blocks, oracle b = none →
      dictGet (translate_blocks oracle blocks) b.base.block_id = some b.base.text) := by
  have h := translate_blocks_go oracle blocks [] (by simpa using hnd)
  refine ⟨by simpa using h.1, ?_⟩
  intro b hb hob
  have hv := h.2.2 b hb
  rw [hob] at hv
  exact hv

/-- Witness for claim C1: a one-block batch under a total-failure oracle
still covers the block and answers it with its own source text. -/
theorem translate_blocks_spec_witness :
    dictGet (translate_blocks (fun _ => none) [sampleBlock]) sampleBlock.base.block_id
      = some sampleBlock.base.text :=
  (translate_blocks_spec (fun _ => none) [sampleBlock] (by simp) (by simp)).2
    sampleBlock (List.mem_singleton.mpr rfl) rfl

/-! ## Sanitizer lemmas -/

theorem dropLeadingBlanks_replicate :
    ∀ l : List String, ∃ a, l = List.replicate a "" ++ dropLeadingBlanks l := by
  intro l
  induction l with
  | nil => exact ⟨0, rfl⟩
  | cons x xs ih =>
    by_cases hx : x = ""
    · obtain ⟨a, ha⟩ := ih
      refine ⟨a + 1, ?_⟩
      rw [dropLeadingBlanks, if_pos hx]
      subst hx
      rw [List.replicate_succ, List.cons_append]
      exact congrArg _ ha
    · exact ⟨0, by rw [dropLeadingBlanks, if_neg hx]; rfl⟩

theorem trimBlanks_replicate (l : List String) :
    ∃ a b, l = List.replicate a "" ++ trimBlanks l ++ List.replicate b "" := by
  obtain ⟨a, ha⟩ := dropLeadingBlanks_replicate l
  obtain ⟨b, hb⟩ := dropLeadingBlanks_replicate (dropLeadingBlanks l).reverse
  refine ⟨a, b, ?_⟩
  rw [trimBlanks]
  have hrev : dropLeadingBlanks l
      = (dropLeadingBlanks (dropLeadingBlanks l).reverse).reverse
        ++ List.replicate b "" := by
    have := congrArg List.reverse hb
    simpa [List.reverse_append, List.reverse_replicate] using this
  calc l = List.replicate a "" ++ dropLeadingBlanks l := ha
    _ = List.replicate a ""
          ++ ((dropLeadingBlanks (dropLeadingBlanks l).reverse).reverse
              ++ List.replicate b "") := by rw [← hrev]
    _ = List.replicate a ""
          ++ (dropLeadingBlanks (dropLeadingBlanks l).reverse).reverse
          ++ List.replicate b "" := by rw [List.append_assoc]

/-- Claim C6 (amended): after commentary lines are dropped, leading and
trailing blank lines are trimmed while internal blank lines are
preserved (the filtered line list is the trimmed list with some number
of blank lines re-attached at each end); when filtering leaves no lines
at all the function falls back to the stripped raw reply (and to the
source text only if that is empty); when lines survive but the trimmed
join is empty - which can happen with a non-empty raw reply - the
function falls back directly to the original source text. -/
theorem sanitize_reply_spec (reply text : String) :
    (filterLines (splitNl (pyStrip reply)) = [] →
        sanitizeReply reply text
          = if pyStrip reply = "" then text else pyStrip reply) ∧
    (filterLines (splitNl (pyStrip reply)) ≠ [] →
        joinNl (trimBlanks (filterLines (splitNl (pyStrip reply)))) ≠ "" →
        sanitizeReply reply text
          = joinNl (trimBlanks (filterLines (splitNl (pyStrip reply))))) ∧
    (filterLines (splitNl (pyStrip reply)) ≠ [] →
        joinNl (trimBlanks (filterLines (splitNl (pyStrip reply)))) = "" →
        sanitizeReply reply text = text) ∧
    (∃ a b, filterLines (splitNl (pyStrip reply))
        = List.replicate a "" ++ trimBlanks (filterLines (splitNl (pyStrip reply)))
          ++ List.replicate b "") := by
  refine ⟨?_, ?_, ?_, trimBlanks_replicate _⟩
  · intro hF
    simp only [sanitizeReply, hF, if_true, eq_self_iff_true, if_pos]
  · intro hF hJ
    simp only [sanitizeReply, if_neg hF]
    rw [if_neg hJ]
  · intro hF hJ
    simp only [sanitizeReply, if_neg hF]
    rw [hJ, if_pos rfl]

/-- Witness for claim C6 at a concrete accepted reply. -/
theorem sanitize_reply_spec_witness :
    sanitizeReply "  Salut  " "orig" = "Salut" :=
  ((sanitize_reply_spec "  Salut  " "orig").2.1 (by decide) (by decide)).trans (by decide)

/-- Counterexample to claim C6 as stated: the reply built from two
commentary lines around one blank line makes sanitization empty the
result while the raw (stripped) reply is non-empty, yet translate_text
answers with the original source text instead of the raw reply. -/
theorem sanitize_reply_counterexample :
    joinNl (trimBlanks (filterLines (splitNl (pyStrip "note: a\n\nnote: b")))) = "" ∧
    filterLines (splitNl (pyStrip "note: a\n\nnote: b")) ≠ [] ∧
    pyStrip "note: a\n\nnote: b" ≠ "" ∧
    sanitizeReply "note: a\n\nnote: b" "hello" = "hello" ∧
    sanitizeReply "note: a\n\nnote: b" "hello" ≠ pyStrip "note: a\n\nnote: b" := by
  decide

/-! ## Subtitle lemmas -/

theorem srtGo_map_audio (tm : List (String × String)) :
    ∀ (l : List AudioBlock) (k : Nat),
      srtGo tm k (l.map Block.audio)
        = concatStrings ((l.enumFrom k).map (fun p => srtRecord p.1 p.2 tm)) := by
  intro l
  induction l with
  | nil => intro k; rfl
  | cons a l' ih =>
    intro k
    simp only [List.map_cons, srtGo, List.enumFrom, concatStrings, List.foldr_cons]
    rw [← concatStrings]
    exact congrArg _ (ih (k + 1))

/-- Claim C8: on an all-audio block list, the subtitle file is exactly
the concatenation of one SubRip record per block, 1-indexed in block
order (index line, timing line, translated text line, blank separator
line); timestamps are truncated to milliseconds, in particular 125.4 s
formats as 00:02:05,400 (and 0.0019 s as 00:00:00,001, truncated, not
rounded). -/
theorem srt_file_spec :
    (∀ (l : List AudioBlock) (tm : List (String × String)),
      _generate_srt_file (l.map Block.audio) tm
        = concatStrings ((l.enumFrom 1).map (fun p => srtRecord p.1 p.2 tm))) ∧
    _format_srt_timestamp (627/5) = "00:02:05,400" ∧
    _format_srt_timestamp (19/10000) = "00:00:00,001" := by
  refine ⟨fun l tm => srtGo_map_audio tm l 1, ?_, ?_⟩
  · have h1 : ((627 : ℚ)/5/3600).floor = 0 := by norm_num [Rat.floor_def']
    have h2 : (pyMod ((627 : ℚ)/5) 3600 / 60).floor = 2 := by
      norm_num [pyMod, Rat.floor_def']
    have h3 : (pyMod ((627 : ℚ)/5) 60).floor = 5 := by
      norm_num [pyMod, Rat.floor_def']
    have h4 : (pyMod ((627 : ℚ)/5) 1 * 1000).floor = 400 := by
      norm_num [pyMod, Rat.floor_def']
    simp only [_format_srt_timestamp, h1, h2, h3, h4]
    decide
  · have h1 : ((19 : ℚ)/10000/3600).floor = 0 := by norm_num [Rat.floor_def']
    have h2 : (pyMod ((19 : ℚ)/10000) 3600 / 60).floor = 0 := by
      norm_num [pyMod, Rat.floor_def']
    have h3 : (pyMod ((19 : ℚ)/10000) 60).floor = 0 := by
      norm_num [pyMod, Rat.floor_def']
    have h4 : (pyMod ((19 : ℚ)/10000) 1 * 1000).floor = 1 := by
      norm_num [pyMod, Rat.floor_def']
    simp only [_format_srt_timestamp, h1, h2, h3, h4]
    decide

/-! ## Reconstruction index lemmas -/

theorem dictGetD_nil (k d : String) : dictGetD [] k d = d := rfl

theorem set_self_of_getElem? {α : Type} :
    ∀ (l : List α) (i : ℕ) (a : α), l[i]? = some a → l.set i a = l := by
  intro l
  induction l with
  | nil => intro i a h; simp at h
  | cons x xs ih =>
    intro i a h
    cases i with
    | zero =>
      simp only [List.getElem?_cons_zero, Option.some.injEq] at h
      simp [h]
    | succ n =>
      simp only [List.getElem?_cons_succ] at h
      simp [ih n a h]

theorem map_set_congr {α β : Type} (f : α → β) (l : List α) (i : ℕ) (a b : α)
    (h : l[i]? = some a) (hfb : f b = f a) : (l.set i b).map f = l.map f := by
  rw [List.map_set, hfb]
  apply set_self_of_getElem?
  rw [List.getElem?_map, h]
  rfl

/-- Claim C9: during DOCX/PPTX reconstruction, a block whose stored
index chain does not resolve against the copied document is silently
skipped (the document is returned unchanged, no error path exists in the
total step function); a block whose index resolves to a paragraph with
runs has its first run overwritten with translations.get(block_id,
block.text) and every other run blanked, leaving every other container
untouched. -/
theorem index_mismatch_spec (tm : List (String × String)) (doc : DocxDoc)
    (pdoc : PptxDoc) (blk : DocxBlock) (pblk : PptxBlock) :
    (blk.is_table_cell = false → doc.paragraphs[blk.paragraph_index]? = none →
      docxStep tm doc (Block.docx blk) = doc) ∧
    (blk.is_table_cell = true →
      cellTextsAt doc.tables blk.table_index blk.row_index blk.col_index = none →
      docxStep tm doc (Block.docx blk) = doc) ∧
    ((pdoc.slides[pblk.slide_index]?.bind (fun s =>
        (s[pblk.shape_index]?).bind (fun sh =>
          sh.bind (fun tf => tf[pblk.paragraph_index]?)))) = none →
      pptxStep tm pdoc (Block.pptx pblk) = pdoc) ∧
    (blk.is_table_cell = false → ∀ r rs,
      doc.paragraphs[blk.paragraph_index]? = some (r :: rs) →
      (docxStep tm doc (Block.docx blk)).paragraphs[blk.paragraph_index]?
          = some (dictGetD tm blk.block_id blk.text :: rs.map (fun _ => "")) ∧
      (∀ j, j ≠ blk.paragraph_index →
        (docxStep tm doc (Block.docx blk)).paragraphs[j]? = doc.paragraphs[j]?) ∧
      (docxStep tm doc (Block.docx blk)).tables = doc.tables) ∧
    (blk.is_table_cell = true → ∀ r rs ps,
      cellTextsAt doc.tables blk.table_index blk.row_index blk.col_index
          = some ((r :: rs) :: ps) →
      cellTextsAt (docxStep tm doc (Block.docx blk)).tables
          blk.table_index blk.row_index blk.col_index
          = some ((dictGetD tm blk.block_id blk.text :: rs.map (fun _ => "")) :: ps) ∧
      (docxStep tm doc (Block.docx blk)).paragraphs = doc.paragraphs) ∧
    (∀ slide tf r rs,
      pdoc.slides[pblk.slide_index]? = some slide →
      slide[pblk.shape_index]? = some (some tf) →
      tf[pblk.paragraph_index]? = some (r :: rs) →
      ((pptxStep tm pdoc (Block.pptx pblk)).slides[pblk.slide_index]?.bind (fun s =>
          (s[pblk.shape_index]?).bind (fun sh =>
            sh.bind (fun tf' => tf'[pblk.paragraph_index]?))))
        = some (dictGetD tm pblk.block_id pblk.text :: rs.map (fun _ => ""))) := by
  refine ⟨?_, ?_, ?_, ?_, ?_, ?_⟩
  · intro hc hp
    simp [docxStep, hc, hp]
  · intro hc hcell
    cases ht : doc.tables[blk.table_index]? with
    | none => simp [docxStep, hc, ht]
    | some tbl =>
      cases hr : tbl[blk.row_index]? with
      | none => simp [docxStep, hc, ht, hr]
      | some row =>
        cases hco : row[blk.col_index]? with
        | none => simp [docxStep, hc, ht, hr, hco]
        | some cell =>
          rw [cellTextsAt, ht] at hcell
          simp only [Option.some_bind, hr, hco] at hcell
          exact Option.noConfusion hcell
  · intro hchain
    cases hs : pdoc.slides[pblk.slide_index]? with
    | none => simp [pptxStep, hs]
    | some slide =>
      cases hsh : slide[pblk.shape_index]? with
      | none => simp [pptxStep, hs, hsh]
      | some shape =>
        cases shape with
        | none => simp [pptxStep, hs, hsh]
        | some tf =>
          cases hpp : tf[pblk.paragraph_index]? with
          | none => simp [pptxStep, hs, hsh, hpp]
          | some para =>
            rw [hs] at hchain
            simp only [Option.some_bind, hsh, hpp] at hchain
            exact Option.noConfusion hchain
  · intro hc r rs hp
    have hlen : blk.paragraph_index < doc.paragraphs.length :=
      (List.getElem?_eq_some_iff.mp hp).choose
    refine ⟨?_, ?_, ?_⟩
    · simp only [docxStep, hc, Bool.false_eq_true, if_false, hp]
      rw [List.getElem?_set_self hlen]
      rfl
    · intro j hj
      simp only [docxStep, hc, Bool.false_eq_true, if_false, hp]
      exact List.getElem?_set_ne (fun h => hj h.symm)
    · simp only [docxStep, hc, Bool.false_eq_true, if_false, hp]
  · intro hc r rs ps hcell
    rw [cellTextsAt] at hcell
    cases ht : doc.tables[blk.table_index]? with
    | none => rw [ht] at hcell; exact Option.noConfusion hcell
    | some tbl =>
      rw [ht] at hcell
      simp only [Option.some_bind] at hcell
      cases hr : tbl[blk.row_index]? with
      | none => rw [hr] at hcell; exact Option.noConfusion hcell
      | some row =>
        rw [hr] at hcell
        simp only [Option.some_bind] at hcell
        have hti : blk.table_index < doc.tables.length :=
          (List.getElem?_eq_some_iff.mp ht).choose
        have hri : blk.row_index < tbl.length :=
          (List.getElem?_eq_some_iff.mp hr).choose
        have hci : blk.col_index < row.length :=
          (List.getElem?_eq_some_iff.mp hcell).choose
        refine ⟨?_, ?_⟩
        · simp only [docxStep, hc, if_true, ht, hr, hcell]
          simp only [cellTextsAt, List.getElem?_set_self hti, Option.some_bind,
            List.getElem?_set_self hri, List.getElem?_set_self hci]
          rfl
        · simp only [docxStep, hc, if_true, ht, hr, hcell]
  · intro slide tf r rs hs hsh hpp
    have hsi : pblk.slide_index < pdoc.slides.length :=
      (List.getElem?_eq_some_iff.mp hs).choose
    have hshi : pblk.shape_index < slide.length :=
      (List.getElem?_eq_some_iff.mp hsh).choose
    have hpi : pblk.paragraph_index < tf.length :=
      (List.getElem?_eq_some_iff.mp hpp).choose
    simp only [pptxStep, hs, hsh, hpp]
    simp only [List.getElem?_set_self hsi, Option.some_bind,
      List.getElem?_set_self hshi, List.getElem?_set_self hpi]
    rfl

/-- Witness for claim C9: a one-paragraph document with two runs and a
translation present for the block: the first run becomes the translated
text and the second is blanked. -/
theorem index_mismatch_spec_witness :
    (docxStep [("para_0", "Bonjour")] cdoc (Block.docx cdocxblk)).paragraphs[0]?
      = some ["Bonjour", ""] := by
  have h := (index_mismatch_spec [("para_0", "Bonjour")] cdoc cpdoc cdocxblk cpptxblk).2.2.2.1
    (by decide) "Hello" [" world"] (by decide)
  exact h.1.trans (by decide)

/-! ## Empty-translation no-op lemmas -/

theorem concatStrings_cons (s : String) (l : List String) :
    concatStrings (s :: l) = s ++ concatStrings l := rfl

theorem string_append_empty (t : String) : t ++ "" = t := by
  show String.mk (t.data ++ []) = t
  rw [List.append_nil]

theorem concatStrings_blanks (rs : List String) :
    concatStrings (rs.map (fun _ => "")) = "" := by
  induction rs with
  | nil => rfl
  | cons r rs ih =>
    simp only [List.map_cons, concatStrings_cons, ih]
    rfl

theorem paraText_replace (para : List String) (t : String) :
    paraText (_replace_paragraph_text para t) = t := by
  cases para with
  | nil =>
    show concatStrings [t] = t
    rw [concatStrings_cons]
    exact string_append_empty t
  | cons r rest =>
    show concatStrings (t :: rest.map (fun _ => "")) = t
    rw [concatStrings_cons, concatStrings_blanks]
    exact string_append_empty t

theorem docxStep_empty_texts (doc doc' : DocxDoc) (b : Block)
    (heq : docxTexts doc' = docxTexts doc) (hb : blockMatches doc b) :
    docxTexts (docxStep [] doc' b) = docxTexts doc := by
  cases b with
  | pdf t => simpa [docxStep] using heq
  | pptx t => simpa [docxStep] using heq
  | audio t => simpa [docxStep] using heq
  | docx blk =>
    have hmatch := hb blk rfl
    cases hc : blk.is_table_cell with
    | false =>
      cases hp : doc'.paragraphs[blk.paragraph_index]? with
      | none => simpa [docxStep, hc, hp] using heq
      | some para =>
        have hpt : paraText para = blk.text := by
          apply hmatch.1 hc (paraText para)
          rw [← heq]
          simp only [docxTexts]
          rw [List.getElem?_map, hp]
          rfl
        have h1 : (doc'.paragraphs.set blk.paragraph_index
              (_replace_paragraph_text para blk.text)).map paraText
            = doc'.paragraphs.map paraText :=
          map_set_congr paraText _ _ para _ hp
            ((paraText_replace para blk.text).trans hpt.symm)
        simp only [docxStep, hc, Bool.false_eq_true, if_false, hp, dictGetD_nil]
        rw [← heq]
        simp only [docxTexts]
        rw [h1]
    | true =>
      cases ht : doc'.tables[blk.table_index]? with
      | none => simpa [docxStep, hc, ht] using heq
      | some tbl =>
        cases hr : tbl[blk.row_index]? with
        | none => simpa [docxStep, hc, ht, hr] using heq
        | some row =>
          cases hco : row[blk.col_index]? with
          | none => simpa [docxStep, hc, ht, hr, hco] using heq
          | some cell =>
            cases cell with
            | nil => simpa [docxStep, hc, ht, hr, hco] using heq
            | cons p ps =>
              have hpt : paraText p = blk.text := by
                apply hmatch.2 hc ((p :: ps).map paraText) (paraText p) ?_ rfl
                rw [← heq]
                simp only [docxTexts, cellTextsAt]
                rw [List.getElem?_map, ht]
                simp [List.getElem?_map, hr, hco]
              have hcell3 : ((_replace_paragraph_text p blk.text :: ps).map paraText)
                  = ((p :: ps).map paraText) := by
                simp only [List.map_cons]
                rw [paraText_replace, hpt]
              have h2 : ((row.set blk.col_index
                      (_replace_paragraph_text p blk.text :: ps)).map
                    (fun c => c.map paraText))
                  = row.map (fun c => c.map paraText) :=
                map_set_congr _ row _ (p :: ps) _ hco hcell3
              have h1 : ((tbl.set blk.row_index (row.set blk.col_index
                      (_replace_paragraph_text p blk.text :: ps))).map
                    (fun r => r.map (fun c => c.map paraText)))
                  = tbl.map (fun r => r.map (fun c => c.map paraText)) :=
                map_set_congr _ tbl _ row _ hr h2
              have h0 : ((doc'.tables.set blk.table_index
                      (tbl.set blk.row_index (row.set blk.col_index
                        (_replace_paragraph_text p blk.text :: ps)))).map
                    (fun t => t.map (fun r => r.map (fun c => c.map paraText))))
                  = doc'.tables.map
                      (fun t => t.map (fun r => r.map (fun c => c.map paraText))) :=
                map_set_congr _ doc'.tables _ tbl _ ht h1
              simp only [docxStep, hc, if_true, ht, hr, hco, dictGetD_nil]
              rw [← heq]
              simp only [docxTexts]
              rw [h0]

theorem rebuild_docx_empty_texts :
    ∀ (blocks : List Block) (doc doc' : DocxDoc),
      docxTexts doc' = docxTexts doc →
      (∀ b ∈ blocks, blockMatches doc b) →
      docxTexts (rebuild_docx doc' blocks []) = docxTexts doc := by
  intro blocks
  induction blocks with
  | nil =>
    intro doc doc' heq _
    simpa [rebuild_docx] using heq
  | cons b rest ih =>
    intro doc doc' heq hb
    exact ih doc (docxStep [] doc' b)
      (docxStep_empty_texts doc doc' b heq (hb b (by simp)))
      (fun b' hb' => hb b' (by simp [hb']))

/-- Claim C3 (amended): with an empty TranslationMap every substituted
string is translations.get(block_id, block.text) = the block's own
source text, and the subtitle file's text content equals the source
texts unconditionally; the DOCX rebuild preserves the document's text
content only under the additional premise that each block's text equals
the run-concatenated text of the paragraph (or of the cell's first
paragraph) it rewrites - a premise the repository's extractor does not
guarantee. -/
theorem empty_translations_noop :
    (∀ (doc : DocxDoc) (blocks : List Block),
      (∀ b ∈ blocks, blockMatches doc b) →
      docxTexts (rebuild_docx doc blocks []) = docxTexts doc) ∧
    (∀ (l : List AudioBlock),
      _generate_srt_file (l.map Block.audio) []
        = concatStrings ((l.enumFrom 1).map (fun p =>
            toString p.1 ++ "\n" ++ _format_srt_timestamp p.2.start_time ++ " --> "
              ++ _format_srt_timestamp p.2.end_time ++ "\n" ++ p.2.text ++ "\n" ++ "\n"))) := by
  constructor
  · intro doc blocks hb
    exact rebuild_docx_empty_texts blocks doc doc rfl hb
  · intro l
    show srtGo [] 1 (l.map Block.audio) = _
    rw [srtGo_map_audio [] l 1]
    simp only [srtRecord, dictGetD_nil]

/-- Witness for claim C3 at a concrete one-paragraph document whose
block text matches the paragraph text. -/
theorem empty_translations_noop_witness :
    docxTexts (rebuild_docx cdoc [Block.docx cdocxblk] []) = docxTexts cdoc := by
  apply empty_translations_noop.1
  intro b hb
  simp only [List.mem_singleton] at hb
  subst hb
  intro blk hblk
  injection hblk with h
  subst h
  constructor
  · intro _ s hs
    have hx : (docxTexts cdoc).1[cdocxblk.paragraph_index]? = some "Hello world" := by
      decide
    exact (Option.some.inj (hx.symm.trans hs)).symm
  · intro hc
    exact absurd hc (by decide)

/-- Counterexample to claim C3 as stated: reconstruction with an empty
TranslationMap is not a textual no-op.  For a table cell with the two
paragraphs A and B, extract_docx stores the block text "A\nB" (the
newline-join cell.text); rebuild_docx writes that whole string into the
cell's first paragraph only, so the rebuilt cell's paragraph texts are
["A\nB", "B"] - cell text "A\nB\nB" - instead of the original
["A", "B"]. -/
theorem empty_translations_counterexample :
    (docxTexts (rebuild_docx cellDoc [Block.docx cellBlk] [])).2 = [[[["A\nB", "B"]]]] ∧
    (docxTexts cellDoc).2 = [[[["A", "B"]]]] ∧
    docxTexts (rebuild_docx cellDoc [Block.docx cellBlk] []) ≠ docxTexts cellDoc := by
  refine ⟨?_, ?_, ?_⟩ <;> decide

/-! ## PDF page-emission lemmas -/

/-- Counterexample to claim C4 as stated: a two-page original whose only
block sits on page 1 yields a single emitted page (the smallest
block-carrying index is 0, so no blank page is flushed either), not one
output page for every original page - page 2 is never emitted. -/
theorem rebuild_pdf_counterexample :
    ((rebuild_pdf [((100 : ℚ), 200), (300, 400)] [sampleBlock] []).map
        (fun p => p.pageIndex) = [0]) ∧
    [((100 : ℚ), 200), (300, 400)].length = 2 ∧
    (rebuild_pdf [((100 : ℚ), 200), (300, 400)] [sampleBlock] []).length ≠ 2 := by
  have h : rebuild_pdf [((100 : ℚ), 200), (300, 400)] [sampleBlock] []
      = [mkPage (effSizes [((100 : ℚ), 200), (300, 400)]) [] [sampleBlock] 0] := rfl
  refine ⟨?_, rfl, ?_⟩
  · rw [h]
    rfl
  · rw [h]
    simp

/-- Claim C4 (amended): rebuild_pdf emits one page-drawing pass per
distinct block-carrying page index, in strictly ascending order; when
the smallest such index is positive, the first pass's showPage flushes
the initial canvas page, so one leading blank page (no draw commands,
carrying the first recovered page size) precedes them; no page is ever
emitted for an original page without blocks otherwise; a drawn page
whose index lies within the recovered page-size list gets that original
page's (width, height) set, one out of range gets no size set (getElem?
captures both); and the recovered size list defaults to a single A4 page
when the original yields no pages. -/
theorem rebuild_pdf_pages_spec (origSizes : List (ℚ × ℚ)) (blocks : List Block)
    (tm : List (String × String)) :
    (pdfPageKeys blocks = [] → rebuild_pdf origSizes blocks tm = []) ∧
    (∀ kt, pdfPageKeys blocks = 0 :: kt →
      rebuild_pdf origSizes blocks tm
        = (pdfPageKeys blocks).map (mkPage (effSizes origSizes) tm blocks)) ∧
    (∀ k kt, pdfPageKeys blocks = k :: kt → 0 < k →
      rebuild_pdf origSizes blocks tm
        = blankPage (effSizes origSizes)
            :: (pdfPageKeys blocks).map (mkPage (effSizes origSizes) tm blocks)) ∧
    ((blankPage (effSizes origSizes)).draws = []
      ∧ (blankPage (effSizes origSizes)).size = (effSizes origSizes)[0]?) ∧
    (pdfPageKeys blocks).Sorted (· < ·) ∧
    (∀ k, k ∈ pdfPageKeys blocks ↔ ∃ b ∈ blocks, pageNum b = k) ∧
    (∀ p ∈ (pdfPageKeys blocks).map (mkPage (effSizes origSizes) tm blocks),
      p.size = (effSizes origSizes)[p.pageIndex]? ∧ p.pageIndex ∈ pdfPageKeys blocks) ∧
    (origSizes = [] → effSizes origSizes = [a4Size]) := by
  refine ⟨?_, ?_, ?_, ⟨rfl, rfl⟩, ?_, ?_, ?_, ?_⟩
  · intro hk
    simp [rebuild_pdf, leadingBlank, hk]
  · intro kt hk
    simp only [rebuild_pdf, hk]
    simp [leadingBlank]
  · intro k kt hk hpos
    simp only [rebuild_pdf, hk, leadingBlank]
    rw [if_pos hpos]
    rfl
  · have hsorted : (pdfPageKeys blocks).Sorted (· ≤ ·) :=
      List.sorted_insertionSort (· ≤ ·) _
    have hnodup : (pdfPageKeys blocks).Nodup :=
      ((List.perm_insertionSort (· ≤ ·) _).nodup_iff).mpr (List.nodup_dedup _)
    exact (List.Pairwise.and hsorted hnodup).imp (fun h => lt_of_le_of_ne h.1 h.2)
  · intro k
    rw [pdfPageKeys, (List.perm_insertionSort (· ≤ ·) _).mem_iff, List.mem_dedup]
    constructor
    · intro hk
      obtain ⟨b, hb, hbk⟩ := List.mem_map.mp hk
      exact ⟨b, hb, hbk⟩
    · rintro ⟨b, hb, hbk⟩
      exact List.mem_map.mpr ⟨b, hb, hbk⟩
  · intro p hp
    obtain ⟨k, hk, hpk⟩ := List.mem_map.mp hp
    subst hpk
    exact ⟨rfl, hk⟩
  · intro h
    rw [effSizes, if_pos h]

/-- Witness for claim C4: a two-page original whose only block sits on
page 2 emits the flushed initial blank page followed by the single drawn
page. -/
theorem rebuild_pdf_pages_spec_witness :
    rebuild_pdf [((100 : ℚ), 200), (300, 400)] [pageTwoBlock] []
      = blankPage (effSizes [((100 : ℚ), 200), (300, 400)])
          :: (pdfPageKeys [pageTwoBlock]).map
              (mkPage (effSizes [((100 : ℚ), 200), (300, 400)]) [] [pageTwoBlock]) :=
  (rebuild_pdf_pages_spec [((100 : ℚ), 200), (300, 400)] [pageTwoBlock] []).2.2.1
    1 [] rfl (by decide)

/-- Claim C5: every draw command produced by rebuild_pdf places its
paragraph at render x = x0 and render y = page_height - y1, converting
the extraction's top-left-origin bbox to the renderer's
bottom-left-origin space. -/
theorem pdf_draw_origin_spec (origSizes : List (ℚ × ℚ)) (blocks : List Block)
    (tm : List (String × String)) :
    ∀ p ∈ rebuild_pdf origSizes blocks tm, ∀ d ∈ p.draws,
      d.x = d.blk.bbox.1
        ∧ d.y = (sizeFor (effSizes origSizes) p.pageIndex).2 - d.blk.bbox.2.2.2 := by
  intro p hp d hd
  simp only [rebuild_pdf, List.mem_append] at hp
  rcases hp with hp | hp
  · exfalso
    cases hk : pdfPageKeys blocks with
    | nil =>
      rw [hk] at hp
      simp [leadingBlank] at hp
    | cons k kt =>
      rw [hk] at hp
      simp only [leadingBlank] at hp
      split at hp
      · simp only [List.mem_singleton] at hp
        subst hp
        simp [blankPage] at hd
      · simp at hp
  · simp only [List.mem_map] at hp
    obtain ⟨k, _, hpk⟩ := hp
    subst hpk
    simp only [mkPage] at hd ⊢
    rw [List.mem_filterMap] at hd
    obtain ⟨b, _, hdb⟩ := hd
    rw [mkDraw] at hdb
    split at hdb
    · exact Option.noConfusion hdb
    · have hd' := Option.some.inj hdb
      subst hd'
      exact ⟨rfl, rfl⟩

/-- Witness for claim C5: the block with bbox (10,20,110,40) on a page of
height 200 is drawn at origin (10, 160). -/
theorem pdf_draw_origin_spec_witness :
    ∃ p ∈ rebuild_pdf [((100 : ℚ), 200)] [Block.pdf cornerBlock] [], ∃ d ∈ p.draws,
      d.x = 10 ∧ d.y = 160 := by
  have hp : mkPage (effSizes [((100 : ℚ), 200)]) [] [Block.pdf cornerBlock] 0
      ∈ rebuild_pdf [((100 : ℚ), 200)] [Block.pdf cornerBlock] [] := by
    rw [show rebuild_pdf [((100 : ℚ), 200)] [Block.pdf cornerBlock] []
        = [mkPage (effSizes [((100 : ℚ), 200)]) [] [Block.pdf cornerBlock] 0] from rfl]
    exact List.mem_singleton.mpr rfl
  have hd : ∃ d ∈ (mkPage (effSizes [((100 : ℚ), 200)]) [] [Block.pdf cornerBlock] 0).draws,
      True := by
    refine ⟨?_, ?_, trivial⟩
    · exact { blk := cornerBlock, x := cornerBlock.bbox.1,
              y := (sizeFor (effSizes [((100 : ℚ), 200)]) 0).2 - cornerBlock.bbox.2.2.2,
              text := escapeText "hi", fontSize := max cornerBlock.font_size 10,
              header := cornerBlock.is_header }
    · rw [show (mkPage (effSizes [((100 : ℚ), 200)]) [] [Block.pdf cornerBlock] 0).draws
          = [{ blk := cornerBlock, x := cornerBlock.bbox.1,
               y := (sizeFor (effSizes [((100 : ℚ), 200)]) 0).2 - cornerBlock.bbox.2.2.2,
               text := escapeText "hi", fontSize := max cornerBlock.font_size 10,
               header := cornerBlock.is_header }] from rfl]
      exact List.mem_singleton.mpr rfl
  obtain ⟨d, hdm, -⟩ := hd
  obtain ⟨h1, h2⟩ := pdf_draw_origin_spec [((100 : ℚ), 200)] [Block.pdf cornerBlock] [] _ hp d hdm
  refine ⟨_, hp, d, hdm, ?_, ?_⟩
  · rw [h1]
    have hblk : d.blk = cornerBlock := by
      revert hdm
      rw [show (mkPage (effSizes [((100 : ℚ), 200)]) [] [Block.pdf cornerBlock] 0).draws
          = [{ blk := cornerBlock, x := cornerBlock.bbox.1,
               y := (sizeFor (effSizes [((100 : ℚ), 200)]) 0).2 - cornerBlock.bbox.2.2.2,
               text := escapeText "hi", fontSize := max cornerBlock.font_size 10,
               header := cornerBlock.is_header }] from rfl]
      intro hdm
      rw [List.mem_singleton.mp hdm]
    rw [hblk]
    rfl
  · rw [h2]
    have hblk : d.blk = cornerBlock := by
      revert hdm
      rw [show (mkPage (effSizes [((100 : ℚ), 200)]) [] [Block.pdf cornerBlock] 0).draws
          = [{ blk := cornerBlock, x := cornerBlock.bbox.1,
               y := (sizeFor (effSizes [((100 : ℚ), 200)]) 0).2 - cornerBlock.bbox.2.2.2,
               text := escapeText "hi", fontSize := max cornerBlock.font_size 10,
               header := cornerBlock.is_header }] from rfl]
      intro hdm
      rw [List.mem_singleton.mp hdm]
    rw [hblk]
    have hsz : sizeFor (effSizes [((100 : ℚ), 200)]) 0 = ((100 : ℚ), 200) := by
      rw [effSizes, if_neg (by simp), sizeFor]
      rfl
    rw [show (mkPage (effSizes [((100 : ℚ), 200)]) [] [Block.pdf cornerBlock] 0).pageIndex
        = 0 from rfl, hsz]
    show (200 : ℚ) - 40 = 160
    norm_num

/-! ## Audio timeline lemmas -/

theorem ratFloor_intFloor (q : ℚ) : q.floor = ⌊q⌋ := by
  rw [Rat.floor_def', Rat.floor_def]

theorem trimPad_length (l : List ℚ) (n : ℕ) : (trimPad l n).length = n := by
  rw [trimPad]
  split
  · rw [List.length_take]
    omega
  · rw [List.length_append, List.length_replicate]
    omega

theorem writeClip_length (sr : ℚ) (buf : List ℚ) (c : ClipSeg) :
    (writeClip sr buf c).length = buf.length := by
  rw [writeClip]
  split
  · rename_i h
    rw [writeAt, List.length_append, List.length_append, List.length_take,
      List.length_drop]
    omega
  · rfl

theorem foldl_writeClip_length (sr : ℚ) :
    ∀ (cs : List ClipSeg) (buf : List ℚ), (cs.foldl (writeClip sr) buf).length = buf.length := by
  intro cs
  induction cs with
  | nil => intro buf; rfl
  | cons c cs ih =>
    intro buf
    rw [List.foldl_cons, ih, writeClip_length]

theorem clips_timing (oracle : AudioSeg → Option (List ℚ)) (sr : ℚ) (segs : List AudioSeg) :
    (synthSegments oracle sr segs).map (fun c => c.start_time + c.duration)
      = segs.map (fun s => s.start_time + s.duration) := by
  rw [synthSegments, List.map_map]
  apply List.map_congr_left
  intro s _
  simp only [Function.comp_apply]
  cases ho : oracle s <;> simp only [ho]

theorem generate_audio_eq (oracle : AudioSeg → Option (List ℚ)) (sr : ℚ)
    (blocks : List Block) (tm : List (String × String))
    (h : collectSegments blocks tm ≠ []) :
    _generate_translated_audio oracle sr blocks tm
      = some ((synthSegments oracle sr (collectSegments blocks tm)).foldl (writeClip sr)
          (List.replicate (totalSamples oracle sr blocks tm) 0)) := by
  rw [_generate_translated_audio, if_neg h]
  rfl

theorem foldl_max_init_le (l : List ℚ) : ∀ init : ℚ, init ≤ l.foldl max init := by
  induction l with
  | nil => intro init; exact le_refl init
  | cons z ys ih =>
    intro init
    rw [List.foldl_cons]
    exact le_trans (le_max_left init z) (ih (max init z))

theorem mem_le_foldl_max (l : List ℚ) : ∀ (init x : ℚ), x ∈ l → x ≤ l.foldl max init := by
  induction l with
  | nil => intro _ x h; simp at h
  | cons z ys ih =>
    intro init x h
    rw [List.foldl_cons]
    rcases List.mem_cons.mp h with h1 | h2
    · subst h1
      exact le_trans (le_max_right init x) (foldl_max_init_le ys (max init x))
    · exact ih (max init z) x h2

theorem le_pyMaxList {x : ℚ} {l : List ℚ} (h : x ∈ l) : x ≤ pyMaxList l := by
  cases l with
  | nil => simp at h
  | cons y ys =>
    rw [pyMaxList]
    rcases List.mem_cons.mp h with h1 | h2
    · subst h1
      exact foldl_max_init_le ys x
    · exact mem_le_foldl_max ys y x h2

theorem sampleCount_superadd {a b m sr : ℚ} (ha : 0 ≤ a) (hb : 0 ≤ b)
    (hm : a + b ≤ m) (hsr : 0 ≤ sr) :
    sampleCount a sr + sampleCount b sr ≤ sampleCount m sr := by
  rw [sampleCount, sampleCount, sampleCount, ratFloor_intFloor, ratFloor_intFloor,
    ratFloor_intFloor]
  have h1 : (0 : ℤ) ≤ ⌊a * sr⌋ := Int.floor_nonneg.mpr (mul_nonneg ha hsr)
  have h2 : (0 : ℤ) ≤ ⌊b * sr⌋ := Int.floor_nonneg.mpr (mul_nonneg hb hsr)
  have hadd : ⌊a * sr⌋ + ⌊b * sr⌋ ≤ ⌊(a + b) * sr⌋ := by
    apply Int.le_floor.mpr
    push_cast
    rw [add_mul]
    exact add_le_add (Int.floor_le (a * sr)) (Int.floor_le (b * sr))
  have hmono : ⌊(a + b) * sr⌋ ≤ ⌊m * sr⌋ :=
    Int.floor_le_floor (mul_le_mul_of_nonneg_right hm hsr)
  omega

theorem collectSegments_nonneg (blocks : List Block) (tm : List (String × String))
    (hts : ∀ a : AudioBlock, Block.audio a ∈ blocks →
      0 ≤ a.start_time ∧ a.start_time ≤ a.end_time) :
    ∀ s ∈ collectSegments blocks tm, 0 ≤ s.start_time ∧ 0 ≤ s.duration := by
  intro s hs
  rw [collectSegments, List.mem_filterMap] at hs
  obtain ⟨b, hb, hbs⟩ := hs
  cases b with
  | pdf t => exact Option.noConfusion hbs
  | docx t => exact Option.noConfusion hbs
  | pptx t => exact Option.noConfusion hbs
  | audio a =>
    dsimp only at hbs
    split at hbs
    · exact Option.noConfusion hbs
    · have hs' := Option.some.inj hbs
      subst hs'
      obtain ⟨h1, h2⟩ := hts a hb
      exact ⟨h1, sub_nonneg.mpr h2⟩

theorem mem_synthSegments (oracle : AudioSeg → Option (List ℚ)) (sr : ℚ)
    (segs : List AudioSeg) (c : ClipSeg) (hc : c ∈ synthSegments oracle sr segs) :
    ∃ s ∈ segs, c.start_time = s.start_time ∧ c.duration = s.duration := by
  rw [synthSegments, List.mem_map] at hc
  obtain ⟨s, hsm, hsc⟩ := hc
  refine ⟨s, hsm, ?_⟩
  cases ho : oracle s <;> rw [ho] at hsc <;> subst hsc <;> exact ⟨rfl, rfl⟩

/-- Claim C7: every clip is trimmed or silence-padded to exactly
duration * sample_rate samples; the single silent output buffer is sized
to max(start_time + duration) over all collected segments; every clip's
guarded write fits inside the buffer, so it is written at its own
start_time offset and never skipped; a per-segment synthesis failure is
replaced by a silence clip of the same duration; and the overall
timeline length is the same under any two synthesis oracles. -/
theorem audio_timeline_spec (oracle : AudioSeg → Option (List ℚ)) (sr : ℚ)
    (blocks : List Block) (tm : List (String × String))
    (hsr : 0 ≤ sr)
    (hts : ∀ a : AudioBlock, Block.audio a ∈ blocks →
      0 ≤ a.start_time ∧ a.start_time ≤ a.end_time) :
    (∀ (l : List ℚ) (n : ℕ), (trimPad l n).length = n) ∧
    (∀ buf, _generate_translated_audio oracle sr blocks tm = some buf →
      buf.length = totalSamples oracle sr blocks tm) ∧
    (∀ c ∈ synthSegments oracle sr (collectSegments blocks tm), ∀ buf : List ℚ,
      buf.length = totalSamples oracle sr blocks tm →
      writeClip sr buf c
        = writeAt buf (sampleCount c.start_time sr)
            (trimPad c.audio (sampleCount c.duration sr))) ∧
    (∀ s ∈ collectSegments blocks tm, oracle s = none →
      ClipSeg.mk (List.replicate (sampleCount s.duration sr) 0) s.start_time s.duration
        ∈ synthSegments oracle sr (collectSegments blocks tm)) ∧
    (∀ oracle₂ : AudioSeg → Option (List ℚ),
      (_generate_translated_audio oracle sr blocks tm).map List.length
        = (_generate_translated_audio oracle₂ sr blocks tm).map List.length) := by
  have hfit : ∀ c ∈ synthSegments oracle sr (collectSegments blocks tm),
      sampleCount c.start_time sr + sampleCount c.duration sr
        ≤ totalSamples oracle sr blocks tm := by
    intro c hc
    obtain ⟨s, hsm, h1, h2⟩ := mem_synthSegments oracle sr _ c hc
    obtain ⟨hs1, hs2⟩ := collectSegments_nonneg blocks tm hts s hsm
    have hmem : c.start_time + c.duration
        ∈ (synthSegments oracle sr (collectSegments blocks tm)).map
            (fun c => c.start_time + c.duration) :=
      List.mem_map.mpr ⟨c, hc, rfl⟩
    exact sampleCount_superadd (h1 ▸ hs1) (h2 ▸ hs2) (le_pyMaxList hmem) hsr
  refine ⟨trimPad_length, ?_, ?_, ?_, ?_⟩
  · intro buf hbuf
    by_cases hseg : collectSegments blocks tm = []
    · rw [_generate_translated_audio, if_pos hseg] at hbuf
      exact Option.noConfusion hbuf
    · rw [generate_audio_eq oracle sr blocks tm hseg] at hbuf
      have := Option.some.inj hbuf
      subst this
      rw [foldl_writeClip_length, List.length_replicate]
  · intro c hc buf hbuf
    rw [writeClip, if_pos]
    rw [hbuf, trimPad_length]
    exact hfit c hc
  · intro s hsm hoc
    rw [synthSegments]
    apply List.mem_map.mpr
    exact ⟨s, hsm, by rw [hoc]⟩
  · intro oracle₂
    by_cases hseg : collectSegments blocks tm = []
    · rw [_generate_translated_audio, if_pos hseg,
        _generate_translated_audio, if_pos hseg]
    · rw [generate_audio_eq oracle sr blocks tm hseg,
        generate_audio_eq oracle₂ sr blocks tm hseg]
      simp only [Option.map_some']
      rw [foldl_writeClip_length, foldl_writeClip_length, List.length_replicate,
        List.length_replicate]
      rw [totalSamples, totalSamples, clips_timing, clips_timing]

/-- Witness for claim C7: its hypotheses hold at a one-block audio
document under a total-failure oracle, and a one-sample clip is padded to
three samples. -/
theorem audio_timeline_spec_witness : (trimPad [(5 : ℚ)] 3).length = 3 := by
  have hts : ∀ a : AudioBlock, Block.audio a ∈ [Block.audio sampleAudioBlock] →
      0 ≤ a.start_time ∧ a.start_time ≤ a.end_time := by
    intro a ha
    simp only [List.mem_singleton] at ha
    injection ha with h
    subst h
    constructor <;> norm_num [sampleAudioBlock]
  have h := audio_timeline_spec (fun _ => none) 1 [Block.audio sampleAudioBlock] []
    (by norm_num) hts
  exact h.1 [(5 : ℚ)] 3

end AIMMT
